import Mathlib

/-!
Verification of the `interpolation_search` crate.

Shallow embedding of the crate's source:
* `src/interpolation_search.rs` — the iterative `interpolation_search_by_key`
  on slices, plus its helpers `lerp_idx` and `normalize`;
* `src/interpolation_factor.rs` — the `InterpolationFactor` estimators for
  integer types, `char` and `Chars` (strings);
* `src/lib.rs` — the recursive `interpolation_search` formulation with its
  helpers `lerp_len` and (an identical) `normalize`;
* `src/linear.rs` / `src/scalable.rs` — `Linear::distance_to` and
  `Scalable::fraction_of` used by the recursive formulation.

Modelling conventions:
* Rust slices become `List α`; `Result<usize, usize>` becomes
  `Except Nat Nat` (`.error` = `Err`, `.ok` = `Ok`).
* `f32` is modelled by `F32`: NaN, the two infinities, and finite values
  carried as exact rationals.  Classification (`is_normal`, comparisons,
  clamping) is exact; arithmetic (`*`, `/`, integer-to-float casts) is
  idealized to exact rational arithmetic, i.e. IEEE rounding and overflow
  of intermediate results are abstracted away.  No claim below depends on
  a rounding direction: the search loop clamps every float-derived index
  back into the window with integer `min`.
* Machine integers become `Int`/`Nat`; where a Rust operation has a
  precondition (unsigned subtraction, `Ord::clamp`) a separate `checked`
  variant returns `Option` and `none` models the panic.
* The loops recurse on an explicit fuel argument, structurally, so that
  all definitions reduce inside `decide`.  Every caller passes at least
  the window's length as fuel; the fuel-exhaustion branch returns the same
  value as the empty-window arm and is proved unreachable by the
  `length ≤ fuel` hypotheses of the lemmas below.
-/

/-- Kernel-computable product of two rationals.  Batteries marks `Rat.mul`
(and `add`, `sub`, `inv`) `@[irreducible]`, which would block `decide` on
concrete runs; `Rat.divInt` is reducible.  Equal to `*` by `qmul_eq`. -/
def qmul (a b : ℚ) : ℚ := Rat.divInt (a.num * b.num) ((a.den : Int) * b.den)

/-- Kernel-computable quotient of two rationals; equal to `/` by `qdiv_eq`. -/
def qdiv (a b : ℚ) : ℚ := Rat.divInt (a.num * (b.den : Int)) ((a.den : Int) * b.num)

/-- Clearing the denominator of a rational. -/
theorem rat_mul_den (a : ℚ) : a * (a.den : ℚ) = a.num := by
  have ha : ((a.den : ℚ)) ≠ 0 := by exact_mod_cast a.den_nz
  exact (eq_div_iff ha).mp (Rat.num_div_den a).symm

/-- The computable product agrees with `Rat` multiplication. -/
theorem qmul_eq (a b : ℚ) : qmul a b = a * b := by
  rw [qmul, Rat.divInt_eq_div]
  have ha : ((a.den : ℚ)) ≠ 0 := by exact_mod_cast a.den_nz
  have hb : ((b.den : ℚ)) ≠ 0 := by exact_mod_cast b.den_nz
  push_cast
  rw [div_eq_iff (mul_ne_zero ha hb), ← rat_mul_den a, ← rat_mul_den b]
  ring

/-- The computable quotient agrees with `Rat` division (both send a zero
divisor to `0`). -/
theorem qdiv_eq (a b : ℚ) : qdiv a b = a / b := by
  by_cases hb0 : b = 0
  · subst hb0
    rw [qdiv]
    simp
  · rw [qdiv, Rat.divInt_eq_div]
    have ha : ((a.den : ℚ)) ≠ 0 := by exact_mod_cast a.den_nz
    have hbn : ((b.num : ℚ)) ≠ 0 := by exact_mod_cast Rat.num_ne_zero.mpr hb0
    push_cast
    rw [div_eq_div_iff (mul_ne_zero ha hbn) hb0, ← rat_mul_den a, ← rat_mul_den b]
    ring

/-- Model of `f32`: NaN, ±infinity, or a finite value as an exact rational. -/
inductive F32 where
  | nan : F32
  | inf : F32
  | neginf : F32
  | fin : ℚ → F32
deriving DecidableEq

namespace F32

/-- The float `0.5` (spelled with `Rat.divInt` to stay kernel-computable). -/
def half : F32 := .fin (Rat.divInt 1 2)

/-- Smallest positive normal `f32` value (`f32::MIN_POSITIVE` = 2^-126). -/
def minPositive : ℚ := Rat.divInt 1 (2 ^ 126)

/-- Model of `f32::is_normal`: neither zero, subnormal, infinite nor NaN.
A finite value is subnormal exactly when `0 < |q| < 2^-126`. -/
def isNormal : F32 → Bool
  | .fin q => decide (q ≠ 0 ∧ minPositive ≤ |q|)
  | _ => false

/-- Model of the IEEE comparison `f == 0.0` (false for NaN). -/
def eqZero : F32 → Bool
  | .fin q => decide (q = 0)
  | _ => false

/-- Model of `f.clamp(0.0, 1.0)`, specialized to its only call site in the
source (`normalize`).  Per `f32::clamp`, NaN propagates. -/
def clamp01 : F32 → F32
  | .nan => .nan
  | .inf => .fin 1
  | .neginf => .fin 0
  | .fin q => .fin (min (max q 0) 1)

/-- Model of `f32` multiplication; products of finite values are exact
(rounding abstracted). -/
def mul : F32 → F32 → F32
  | .nan, _ => .nan
  | _, .nan => .nan
  | .inf, .inf => .inf
  | .inf, .neginf => .neginf
  | .neginf, .inf => .neginf
  | .neginf, .neginf => .inf
  | .inf, .fin q => if q = 0 then .nan else if 0 < q then .inf else .neginf
  | .fin q, .inf => if q = 0 then .nan else if 0 < q then .inf else .neginf
  | .neginf, .fin q => if q = 0 then .nan else if 0 < q then .neginf else .inf
  | .fin q, .neginf => if q = 0 then .nan else if 0 < q then .neginf else .inf
  | .fin a, .fin b => .fin (qmul a b)

/-- Model of `f32` division; quotients of finite values are exact
(rounding abstracted; the sign of zero is abstracted). -/
def div : F32 → F32 → F32
  | .nan, _ => .nan
  | _, .nan => .nan
  | .inf, .inf => .nan
  | .inf, .neginf => .nan
  | .neginf, .inf => .nan
  | .neginf, .neginf => .nan
  | .inf, .fin q => if 0 ≤ q then .inf else .neginf
  | .neginf, .fin q => if 0 ≤ q then .neginf else .inf
  | .fin _, .inf => .fin 0
  | .fin _, .neginf => .fin 0
  | .fin a, .fin b =>
      if b = 0 then (if a = 0 then .nan else if 0 < a then .inf else .neginf)
      else .fin (qdiv a b)

/-- Model of the saturating cast `as usize` (64-bit): truncation toward
zero, negative values and NaN to `0`, `+inf` to `usize::MAX`. -/
def toUsize : F32 → Nat
  | .nan => 0
  | .neginf => 0
  | .inf => 2 ^ 64 - 1
  | .fin q => min q.floor.toNat (2 ^ 64 - 1)

end F32

/-- Model of the cast `n as f32` for an unsigned integer (exact, rounding
abstracted). -/
def natToF32 (n : Nat) : F32 := .fin n

/-- Decidable equality of `Result<usize, usize>` values, so that concrete
runs of the search can be checked by `decide`. -/
instance : DecidableEq (Except Nat Nat) := fun x y =>
  match x, y with
  | .ok a, .ok b => if h : a = b then .isTrue (by rw [h]) else .isFalse (by simpa using h)
  | .ok _, .error _ => .isFalse (by simp)
  | .error _, .ok _ => .isFalse (by simp)
  | .error a, .error b => if h : a = b then .isTrue (by rw [h]) else .isFalse (by simpa using h)

/-- Embeds `normalize` (identical in `src/interpolation_search.rs` and
`src/lib.rs`): `if !f.is_normal() && f != 0.0 { 0.5 } else { f.clamp(0.0, 1.0) }`.
Namespaced under `F32` because Mathlib already has a `normalize`. -/
def F32.normalize (f : F32) : F32 :=
  if !f.isNormal && !f.eqZero then F32.half else f.clamp01

/-- Embeds `lerp_idx` from `src/interpolation_search.rs`: an index in the
half-open range `[first, last)`. -/
def lerp_idx (first last : Nat) (f : F32) : Nat :=
  if first ≥ last then first
  else min (first + ((natToF32 (last - first)).mul f.normalize).toUsize) (last - 1)

/-- Embeds `lerp_len` from `src/lib.rs`. -/
def lerp_len (len : Nat) (f : F32) : Nat :=
  match len with
  | 0 => 0
  | 1 => 0
  | _ => min ((natToF32 len).mul f.normalize).toUsize (len - 1)

/-- Model of `a.abs_diff(b)` on signed integers: the exact nonnegative
difference, which always fits the unsigned type of the same width. -/
def absDiff (a b : Int) : Nat := (a - b).natAbs

/-- Model of `a.abs_diff(b)` on unsigned integers. -/
def natAbsDiff (a b : Nat) : Nat := max a b - min a b

/-- Total model of `Ord::clamp` (its `lo ≤ hi` precondition is checked by
`checkedClamp` below; on `lo ≤ hi` the two agree). -/
def intClamp (x lo hi : Int) : Int := max lo (min x hi)

/-- Embeds the `trivially_interpolation_factor!` macro body from
`src/interpolation_factor.rs` for the signed integer types:
`if a == b { 0.5 } else { let mid = self.clamp(a, b); a.abs_diff(*mid) as f32 / a.abs_diff(*b) as f32 }`. -/
def intInterpolationFactor (t a b : Int) : F32 :=
  if a = b then F32.half
  else
    let mid := intClamp t a b
    F32.div (.fin (absDiff a mid)) (.fin (absDiff a b))

/-- Embeds the `trivially_interpolation_factor!` macro body for the
unsigned integer types. -/
def natInterpolationFactor (t a b : Nat) : F32 :=
  if a = b then F32.half
  else
    let mid := max a (min t b)
    F32.div (.fin (natAbsDiff a mid)) (.fin (natAbsDiff a b))

/-- Embeds `impl InterpolationFactor for char`: delegate to the `u32`
estimator on the code points (`Char.toNat` is `u32::from`). -/
def charInterpolationFactor (t a b : Char) : F32 :=
  natInterpolationFactor t.toNat a.toNat b.toNat

/-- Embeds `impl InterpolationFactor for Chars`: zip the three character
sequences, keep the triples whose `a` and `b` characters differ, and
delegate to the `char` estimator on the first one; `0.5` if there is none.
Rust's `zip` truncates at the shortest sequence, as `List.zip` does. -/
def charsInterpolationFactor (s a b : List Char) : F32 :=
  match ((s.zip a).zip b).filter (fun p => p.1.2 ≠ p.2) with
  | [] => F32.half
  | p :: _ => charInterpolationFactor p.1.1 p.1.2 p.2

/-- Basic range property of `lerp_idx`: for a nonempty window it answers
inside `[first, last - 1]`, whatever the factor (integer `min` clamps the
top, and the float-derived offset is a `Nat`, hence nonnegative). -/
theorem lerp_idx_bounds (first last : Nat) (f : F32) (h : first < last) :
    first ≤ lerp_idx first last f ∧ lerp_idx first last f ≤ last - 1 := by
  unfold lerp_idx
  rw [if_neg (by omega)]
  constructor
  · exact le_min (Nat.le_add_right _ _) (by omega)
  · exact min_le_right _ _

/-- The relative candidate index is inside the window. -/
theorem lerp_idx_sub_lt (first len : Nat) (f : F32) (h : 0 < len) :
    lerp_idx first (first + len) f - first < len := by
  obtain ⟨h1, h2⟩ := lerp_idx_bounds first (first + len) f (by omega)
  omega

/-- Range property of `lerp_len`: strictly below `len` for a nonempty window. -/
theorem lerp_len_lt (len : Nat) (f : F32) (h : 0 < len) : lerp_len len f < len := by
  unfold lerp_len
  match len, h with
  | 1, _ => exact Nat.zero_lt_one
  | n + 2, _ => exact lt_of_le_of_lt (min_le_right _ _) (by omega)

/-- Embeds the loop of `interpolation_search_by_key` from
`src/interpolation_search.rs`.  The state `(first, w)` models the window:
`first` is `first_idx` and `w` is the slice `&self[first_idx..last_idx]`,
so `last_idx = first + w.length`.  The six match arms appear in source
order; the final `.error 0` is the `[_] => Err(0)` arm.  `fac t lo hi`
is `target.interpolation_factor(key(first), key(last))`; the generic
argument mirrors the `K: InterpolationFactor` bound.  `fuel` only drives
the recursion; callers pass at least `w.length`. -/
def interpGo {α κ : Type} [LinearOrder κ] (fac : κ → κ → κ → F32) (key : α → κ)
    (t : κ) : Nat → Nat → List α → Except Nat Nat
  | _, first, [] => .error first
  | 0, first, _ :: _ => .error first
  | fuel + 1, first, f0 :: rest =>
    if t < key f0 then .error first
    else
      match rest with
      | [] =>
        if key f0 = t then .ok first
        else if key f0 < t then .error (first + 1)
        else .error 0
      | r0 :: rs =>
        let lastEl := (r0 :: rs).getLast (List.cons_ne_nil r0 rs)
        if key lastEl < t then .error (first + (f0 :: r0 :: rs).length)
        else
          let fval := fac t (key f0) (key lastEl)
          let midIdx := lerp_idx first (first + (f0 :: r0 :: rs).length) fval
          let mid := (f0 :: r0 :: rs).get
            ⟨midIdx - first, lerp_idx_sub_lt first _ fval (by simp)⟩
          if key mid = t then .ok midIdx
          else if t < key mid then
            interpGo fac key t fuel first ((f0 :: r0 :: rs).take (midIdx - first))
          else
            interpGo fac key t fuel (midIdx + 1) ((f0 :: r0 :: rs).drop (midIdx - first + 1))

/-- Embeds `<[T] as InterpolationSearch<T>>::interpolation_search_by_key`:
run the loop on the full window `[0, len)`. -/
def interpolation_search_by_key {α κ : Type} [LinearOrder κ] (fac : κ → κ → κ → F32)
    (key : α → κ) (s : List α) (t : κ) : Except Nat Nat :=
  interpGo fac key t s.length 0 s

/-- Embeds `interpolation_search`, which delegates to the keyed variant
with the identity key extractor. -/
def interpolation_search {κ : Type} [LinearOrder κ] (fac : κ → κ → κ → F32)
    (s : List κ) (t : κ) : Except Nat Nat :=
  interpolation_search_by_key fac id s t

/-- Offsets both payloads of a `Result<usize, usize>`; this is the
`.map(|idx| idx + k).map_err(|idx| idx + k)` composition in `src/lib.rs`. -/
def shiftResult (k : Nat) : Except Nat Nat → Except Nat Nat
  | .ok i => .ok (i + k)
  | .error i => .error (i + k)

/-- Embeds the recursive `interpolation_search` of `src/lib.rs`.  The arms
appear in source order; indices are relative to the current subslice and
the `Less` branch re-offsets the recursive answer by `mid_idx + 1`.
`frac lo t hi` is `first.distance_to(target).fraction_of(first.distance_to(last))`,
abstracted over the `Linear`/`Scalable` instance pair. -/
def libGo {α : Type} [LinearOrder α] (frac : α → α → α → F32) (t : α) :
    Nat → List α → Except Nat Nat
  | _, [] => .error 0
  | 0, _ :: _ => .error 0
  | fuel + 1, f0 :: rest =>
    if t < f0 then .error 0
    else
      match rest with
      | [] =>
        if f0 = t then .ok 0
        else if f0 < t then .error 1
        else .error 0
      | r0 :: rs =>
        let lastEl := (r0 :: rs).getLast (List.cons_ne_nil r0 rs)
        if lastEl < t then .error (f0 :: r0 :: rs).length
        else
          let fraction := frac f0 t lastEl
          let midIdx := lerp_len (f0 :: r0 :: rs).length fraction
          let mid := (f0 :: r0 :: rs).get ⟨midIdx, lerp_len_lt _ fraction (by simp)⟩
          if mid = t then .ok midIdx
          else if t < mid then libGo frac t fuel ((f0 :: r0 :: rs).take midIdx)
          else shiftResult (midIdx + 1) (libGo frac t fuel ((f0 :: r0 :: rs).drop (midIdx + 1)))

/-- Embeds `<[T] as InterpolationSearch<T, V>>::interpolation_search` from
`src/lib.rs` (the recursive formulation), at the top-level slice. -/
def lib_interpolation_search {α : Type} [LinearOrder α] (frac : α → α → α → F32)
    (s : List α) (t : α) : Except Nat Nat :=
  libGo frac t s.length s

/-- Embeds `Linear::distance_to` for the signed integer types
(`signed_linear!`): `self.abs_diff(*other)`. -/
def intDistanceTo (a b : Int) : Nat := absDiff a b

/-- Embeds `Scalable::fraction_of` for the unsigned integer types
(`impl_scalable_for_integers!`): `if *other == 0 { 0.5 } else { self as f32 / other as f32 }`. -/
def natFractionOf (x y : Nat) : F32 :=
  if y = 0 then F32.half else F32.div (.fin x) (.fin y)

/-- The `frac` argument of `libGo` instantiated for signed integers:
`first.distance_to(target).fraction_of(first.distance_to(last))`. -/
def intFrac (lo t hi : Int) : F32 :=
  natFractionOf (intDistanceTo lo t) (intDistanceTo lo hi)

/-- Total model of `Linear::distance_to` for the unsigned integer types
(`trivially_linear!`): `other - self`, whose `self <= other` precondition
is checked by `checkedSub` below. -/
def natDistanceTo (a b : Nat) : Nat := b - a

/-- The `frac` argument of `libGo` instantiated for unsigned integers. -/
def natFrac (lo t hi : Nat) : F32 :=
  natFractionOf (natDistanceTo lo t) (natDistanceTo lo hi)

/-- Counts the narrowing iterations of `interpGo`: the arms that return a
result count 0, the `Greater`/`Less` arms count 1 plus the rest of the
loop.  Mirrors `interpGo` arm for arm. -/
def interpGoCount {α κ : Type} [LinearOrder κ] (fac : κ → κ → κ → F32) (key : α → κ)
    (t : κ) : Nat → Nat → List α → Nat
  | _, _, [] => 0
  | 0, _, _ :: _ => 0
  | fuel + 1, first, f0 :: rest =>
    if t < key f0 then 0
    else
      match rest with
      | [] => 0
      | r0 :: rs =>
        let lastEl := (r0 :: rs).getLast (List.cons_ne_nil r0 rs)
        if key lastEl < t then 0
        else
          let fval := fac t (key f0) (key lastEl)
          let midIdx := lerp_idx first (first + (f0 :: r0 :: rs).length) fval
          let mid := (f0 :: r0 :: rs).get
            ⟨midIdx - first, lerp_idx_sub_lt first _ fval (by simp)⟩
          if key mid = t then 0
          else if t < key mid then
            interpGoCount fac key t fuel first ((f0 :: r0 :: rs).take (midIdx - first)) + 1
          else
            interpGoCount fac key t fuel (midIdx + 1)
              ((f0 :: r0 :: rs).drop (midIdx - first + 1)) + 1

/-- Number of window-narrowing iterations performed by
`interpolation_search_by_key` on `s` for `t`. -/
def interpolation_search_iterations {α κ : Type} [LinearOrder κ]
    (fac : κ → κ → κ → F32) (key : α → κ) (s : List α) (t : κ) : Nat :=
  interpGoCount fac key t s.length 0 s

/-- Variant of `interpGo` that reports reaching the final
`[_] => Err(0)` arm (the one commented `Should not happen if the array is
sorted`) as `none`; all other arms behave as in `interpGo`. -/
def interpGoMarked {α κ : Type} [LinearOrder κ] (fac : κ → κ → κ → F32) (key : α → κ)
    (t : κ) : Nat → Nat → List α → Option (Except Nat Nat)
  | _, first, [] => some (.error first)
  | 0, first, _ :: _ => some (.error first)
  | fuel + 1, first, f0 :: rest =>
    if t < key f0 then some (.error first)
    else
      match rest with
      | [] =>
        if key f0 = t then some (.ok first)
        else if key f0 < t then some (.error (first + 1))
        else none
      | r0 :: rs =>
        let lastEl := (r0 :: rs).getLast (List.cons_ne_nil r0 rs)
        if key lastEl < t then some (.error (first + (f0 :: r0 :: rs).length))
        else
          let fval := fac t (key f0) (key lastEl)
          let midIdx := lerp_idx first (first + (f0 :: r0 :: rs).length) fval
          let mid := (f0 :: r0 :: rs).get
            ⟨midIdx - first, lerp_idx_sub_lt first _ fval (by simp)⟩
          if key mid = t then some (.ok midIdx)
          else if t < key mid then
            interpGoMarked fac key t fuel first ((f0 :: r0 :: rs).take (midIdx - first))
          else
            interpGoMarked fac key t fuel (midIdx + 1)
              ((f0 :: r0 :: rs).drop (midIdx - first + 1))

/-- Variant of `libGo` that reports reaching the final `[_] => Err(0)` arm
of `src/lib.rs` as `none`. -/
def libGoMarked {α : Type} [LinearOrder α] (frac : α → α → α → F32) (t : α) :
    Nat → List α → Option (Except Nat Nat)
  | _, [] => some (.error 0)
  | 0, _ :: _ => some (.error 0)
  | fuel + 1, f0 :: rest =>
    if t < f0 then some (.error 0)
    else
      match rest with
      | [] =>
        if f0 = t then some (.ok 0)
        else if f0 < t then some (.error 1)
        else none
      | r0 :: rs =>
        let lastEl := (r0 :: rs).getLast (List.cons_ne_nil r0 rs)
        if lastEl < t then some (.error (f0 :: r0 :: rs).length)
        else
          let fraction := frac f0 t lastEl
          let midIdx := lerp_len (f0 :: r0 :: rs).length fraction
          let mid := (f0 :: r0 :: rs).get ⟨midIdx, lerp_len_lt _ fraction (by simp)⟩
          if mid = t then some (.ok midIdx)
          else if t < mid then libGoMarked frac t fuel ((f0 :: r0 :: rs).take midIdx)
          else
            (libGoMarked frac t fuel ((f0 :: r0 :: rs).drop (midIdx + 1))).map
              (shiftResult (midIdx + 1))

/-- Model of `Ord::clamp`, which panics (`none`) unless `lo ≤ hi`. -/
def checkedClamp (x lo hi : Int) : Option Int :=
  if lo ≤ hi then some (max lo (min x hi)) else none

/-- Model of unsigned subtraction `a - b`, which panics (`none`) on
underflow. -/
def checkedSub (a b : Nat) : Option Nat :=
  if b ≤ a then some (a - b) else none

/-- The integer `interpolation_factor` with the panic of `Ord::clamp`
made explicit. -/
def intInterpolationFactorChecked (t a b : Int) : Option F32 :=
  if a = b then some F32.half
  else (checkedClamp t a b).map fun mid =>
    F32.div (.fin (absDiff a mid)) (.fin (absDiff a b))

/-- Variant of `interpGo` at the integer estimator with every partial
operation checked: `none` models a panic of `Ord::clamp` inside
`interpolation_factor`, or an out-of-bounds access `self[mid_idx]`. -/
def interpGoChecked (t : Int) : Nat → Nat → List Int → Option (Except Nat Nat)
  | _, first, [] => some (.error first)
  | 0, first, _ :: _ => some (.error first)
  | fuel + 1, first, f0 :: rest =>
    if t < f0 then some (.error first)
    else
      match rest with
      | [] =>
        if f0 = t then some (.ok first)
        else if f0 < t then some (.error (first + 1))
        else some (.error 0)
      | r0 :: rs =>
        let lastEl := (r0 :: rs).getLast (List.cons_ne_nil r0 rs)
        if lastEl < t then some (.error (first + (f0 :: r0 :: rs).length))
        else
          match intInterpolationFactorChecked t f0 lastEl with
          | none => none
          | some fval =>
            let midIdx := lerp_idx first (first + (f0 :: r0 :: rs).length) fval
            match (f0 :: r0 :: rs)[midIdx - first]? with
            | none => none
            | some mid =>
              if mid = t then some (.ok midIdx)
              else if t < mid then
                interpGoChecked t fuel first ((f0 :: r0 :: rs).take (midIdx - first))
              else
                interpGoChecked t fuel (midIdx + 1)
                  ((f0 :: r0 :: rs).drop (midIdx - first + 1))

/-- Variant of `libGo` at the unsigned instantiation with every partial
operation checked: `none` models an underflowing `other - self` in
`Linear::distance_to`, or an out-of-bounds access `self[mid_idx]`. -/
def libGoChecked (t : Nat) : Nat → List Nat → Option (Except Nat Nat)
  | _, [] => some (.error 0)
  | 0, _ :: _ => some (.error 0)
  | fuel + 1, f0 :: rest =>
    if t < f0 then some (.error 0)
    else
      match rest with
      | [] =>
        if f0 = t then some (.ok 0)
        else if f0 < t then some (.error 1)
        else some (.error 0)
      | r0 :: rs =>
        let lastEl := (r0 :: rs).getLast (List.cons_ne_nil r0 rs)
        if lastEl < t then some (.error (f0 :: r0 :: rs).length)
        else
          match checkedSub t f0, checkedSub lastEl f0 with
          | some d1, some d2 =>
            let fraction := natFractionOf d1 d2
            let midIdx := lerp_len (f0 :: r0 :: rs).length fraction
            match (f0 :: r0 :: rs)[midIdx]? with
            | none => none
            | some mid =>
              if mid = t then some (.ok midIdx)
              else if t < mid then libGoChecked t fuel ((f0 :: r0 :: rs).take midIdx)
              else
                (libGoChecked t fuel ((f0 :: r0 :: rs).drop (midIdx + 1))).map
                  (shiftResult (midIdx + 1))
          | _, _ => none

/-- The iterative search over `Int` with all partial operations checked. -/
def interpolation_search_checked (s : List Int) (t : Int) : Option (Except Nat Nat) :=
  interpGoChecked t s.length 0 s

/-- The recursive search over `Nat` with all partial operations checked. -/
def lib_interpolation_search_checked (s : List Nat) (t : Nat) : Option (Except Nat Nat) :=
  libGoChecked t s.length s

/-- Modelled from the spec: a standard binary search (the Rust `std`
`binary_search` the crate's tests compare against is not part of this
repository's sources) finds the target in a sorted sequence exactly when
some element's key equals it. -/
def binary_search_finds {α κ : Type} [DecidableEq κ] (key : α → κ) (s : List α)
    (t : κ) : Prop :=
  ∃ x ∈ s, key x = t

/-- Modelled from the spec: the insertion point a standard binary search
reports on a miss, "the unique index at which the target could be inserted
while preserving sort order" — for a sorted sequence without the target,
the number of elements whose key is below it. -/
def insertion_point {α κ : Type} [LinearOrder κ] (key : α → κ) (s : List α)
    (t : κ) : Nat :=
  s.countP (fun x => decide (key x < t))

/-- Adversarial input for the iteration-count analysis: `0, 1, ..., 30`
followed by the outlier `1000`. -/
def skewed32 : List Int :=
  [0, 1, 2, 3, 4, 5, 6, 7, 8, 9, 10, 11, 12, 13, 14, 15, 16, 17, 18, 19, 20,
   21, 22, 23, 24, 25, 26, 27, 28, 29, 30, 1000]

/-- Value of `F32.minPositive` as an ordinary fraction. -/
theorem F32.minPositive_def : F32.minPositive = 1 / 2 ^ 126 := by
  rw [F32.minPositive, Rat.divInt_eq_div]
  norm_num

/-- Value of `F32.half` as an ordinary fraction. -/
theorem F32.half_def : F32.half = .fin (1 / 2) := by
  rw [F32.half, Rat.divInt_eq_div]
  norm_num

/-- Characterization used by several claims: `normalize` sends a nonzero
value that is not normal (in the model: a special value, or a finite value
of magnitude below `f32::MIN_POSITIVE`) to `0.5`. -/
theorem normalize_subnormal (q : ℚ) (hq : q ≠ 0) (hlt : |q| < F32.minPositive) :
    F32.normalize (.fin q) = F32.half := by
  simp [F32.normalize, F32.isNormal, F32.eqZero, hq, not_le.mpr hlt]

/-- On zero or a normal finite value, `normalize` is the clamp to `[0, 1]`. -/
theorem normalize_finite (q : ℚ) (h : q = 0 ∨ F32.minPositive ≤ |q|) :
    F32.normalize (.fin q) = .fin (min (max q 0) 1) := by
  rcases h with rfl | h
  · simp [F32.normalize, F32.isNormal, F32.eqZero, F32.clamp01]
  · have hq : q ≠ 0 := by
      intro h0
      rw [h0] at h
      norm_num [F32.minPositive_def] at h
    simp [F32.normalize, F32.isNormal, F32.eqZero, hq, h, F32.clamp01]

/-- The value `0.5` is a fixed point of `normalize`. -/
theorem normalize_half_eq : F32.normalize F32.half = F32.half := by
  have h : F32.normalize (.fin (1 / 2)) = .fin (min (max (1 / 2 : ℚ) 0) 1) :=
    normalize_finite (1 / 2)
      (Or.inr (by rw [abs_of_pos (by norm_num)]; norm_num [F32.minPositive_def]))
  rw [F32.half_def, h]
  norm_num

/-- C5: the normalize step maps every non-finite estimate (NaN, the two
infinities) and every subnormal nonzero value to exactly `0.5`, and clamps
every other finite value into `[0.0, 1.0]` (below `0` to `0`, above `1` to
`1`, in-range values unchanged); consequently the window-narrowing step
`lerp_idx` behaves on a non-finite estimate exactly as on `0.5`. -/
theorem normalize_robustness :
    (F32.normalize .nan = F32.half ∧ F32.normalize .inf = F32.half ∧
      F32.normalize .neginf = F32.half) ∧
    (∀ q : ℚ, q ≠ 0 → |q| < F32.minPositive → F32.normalize (.fin q) = F32.half) ∧
    (∀ q : ℚ, q = 0 ∨ F32.minPositive ≤ |q| →
      F32.normalize (.fin q) = .fin (min (max q 0) 1) ∧
      (q < 0 → F32.normalize (.fin q) = .fin 0) ∧
      (1 < q → F32.normalize (.fin q) = .fin 1) ∧
      (0 ≤ q → q ≤ 1 → F32.normalize (.fin q) = .fin q)) ∧
    (∀ first last : Nat,
      lerp_idx first last .nan = lerp_idx first last F32.half ∧
      lerp_idx first last .inf = lerp_idx first last F32.half ∧
      lerp_idx first last .neginf = lerp_idx first last F32.half) := by
  have h1 : F32.normalize .nan = F32.half := rfl
  have h2 : F32.normalize .inf = F32.half := rfl
  have h3 : F32.normalize .neginf = F32.half := rfl
  refine ⟨⟨h1, h2, h3⟩, normalize_subnormal, ?_, ?_⟩
  · intro q h
    refine ⟨normalize_finite q h, ?_, ?_, ?_⟩
    · intro hneg
      rw [normalize_finite q h, max_eq_right hneg.le, min_eq_left zero_le_one]
    · intro hgt
      rw [normalize_finite q h, max_eq_left (by linarith), min_eq_right (by linarith)]
    · intro h0 hle
      rw [normalize_finite q h, max_eq_left h0, min_eq_left hle]
  · intro first last
    refine ⟨?_, ?_, ?_⟩ <;> simp only [lerp_idx, h1, h2, h3, normalize_half_eq]

/-- Witness for C5: an above-range finite estimate clamps to `1`, a
subnormal estimate maps to `0.5`. -/
theorem normalize_robustness_witness :
    F32.normalize (.fin 2) = .fin 1 ∧
      F32.normalize (.fin (F32.minPositive / 2)) = F32.half :=
  ⟨(normalize_robustness.2.2.1 2
      (Or.inr (by rw [abs_of_pos (by norm_num)]; norm_num [F32.minPositive_def]))).2.2.1 (by norm_num),
   normalize_robustness.2.1 (F32.minPositive / 2) (by norm_num [F32.minPositive_def])
     (by rw [abs_of_pos (by norm_num [F32.minPositive_def])]; norm_num [F32.minPositive_def])⟩

/-- C6: the integer `interpolation_factor(target, low, high)` returns
`0.5` when `low = high`, and otherwise, for `low ≤ target ≤ high`, the
offset of `clamp(target, low, high) = target` from `low` as a fraction of
the `high - low` span, a value in `[0, 1]`; the unsigned absolute
difference of two `w+1`-bit signed values always fits the unsigned type of
the same width (no intermediate overflow).  All twelve integer instances
share this macro-generated body; `Int` covers their values. -/
theorem interpolation_factor_int_spec :
    (∀ t a : Int, intInterpolationFactor t a a = F32.half) ∧
    (∀ t a b : Int, a ≤ t → t ≤ b → a ≠ b →
      intInterpolationFactor t a b = .fin (((t : ℚ) - a) / ((b : ℚ) - a)) ∧
      0 ≤ ((t : ℚ) - a) / ((b : ℚ) - a) ∧ ((t : ℚ) - a) / ((b : ℚ) - a) ≤ 1) ∧
    (∀ (w : Nat) (a b : Int),
      -(2 ^ w) ≤ a → a < 2 ^ w → -(2 ^ w) ≤ b → b < 2 ^ w →
      absDiff a b < 2 ^ (w + 1)) := by
  refine ⟨?_, ?_, ?_⟩
  · intro t a
    simp [intInterpolationFactor]
  · intro t a b hat htb hab
    have hb : a < b := lt_of_le_of_ne (hat.trans htb) hab
    have hmid : intClamp t a b = t := by
      rw [intClamp, min_eq_left htb, max_eq_right hat]
    have hcast1 : ((absDiff a t : ℚ)) = (t : ℚ) - a := by
      rw [absDiff, Int.cast_natAbs]
      rw [abs_of_nonpos (by linarith [(by exact_mod_cast hat : (a : ℚ) ≤ t)])]
      push_cast
      ring
    have hcast2 : ((absDiff a b : ℚ)) = (b : ℚ) - a := by
      rw [absDiff, Int.cast_natAbs]
      rw [abs_of_nonpos (by linarith [(by exact_mod_cast hb : (a : ℚ) < b)])]
      push_cast
      ring
    have hden : ((b : ℚ) - a) ≠ 0 := by
      have : (a : ℚ) < b := by exact_mod_cast hb
      linarith
    have hres : intInterpolationFactor t a b = .fin (((t : ℚ) - a) / ((b : ℚ) - a)) := by
      rw [intInterpolationFactor, if_neg hab, hmid]
      simp only [F32.div]
      rw [if_neg (by rw [hcast2]; exact hden), qdiv_eq, hcast1, hcast2]
    refine ⟨hres, ?_, ?_⟩
    · apply div_nonneg
      · have : (a : ℚ) ≤ t := by exact_mod_cast hat
        linarith
      · have : (a : ℚ) < b := by exact_mod_cast hb
        linarith
    · rw [div_le_one (by exact_mod_cast sub_pos.mpr (show (a : ℚ) < b by exact_mod_cast hb))]
      have : (t : ℚ) ≤ b := by exact_mod_cast htb
      linarith
  · intro w a b h1 h2 h3 h4
    zify
    rw [absDiff, Int.natCast_natAbs, abs_lt]
    have hp : (2 : ℤ) ^ (w + 1) = 2 ^ w + 2 ^ w := by ring
    constructor <;> linarith [hp]

/-- Witness for C6: the factor of `5` between `0` and `10` is `1/2` and
lies in `[0, 1]`; the absolute difference of the extreme `i8` values fits
`u8`. -/
theorem interpolation_factor_int_spec_witness :
    (intInterpolationFactor 5 0 10 = .fin (((5 : ℚ) - 0) / ((10 : ℚ) - 0)) ∧
      0 ≤ ((5 : ℚ) - 0) / ((10 : ℚ) - 0) ∧ ((5 : ℚ) - 0) / ((10 : ℚ) - 0) ≤ 1) ∧
    absDiff (-128) 127 < 2 ^ (7 + 1) :=
  ⟨interpolation_factor_int_spec.2.1 5 0 10 (by norm_num) (by norm_num) (by norm_num),
   interpolation_factor_int_spec.2.2 7 (-128) 127 (by norm_num) (by norm_num)
     (by norm_num) (by norm_num)⟩

/-- Unfolding rule for the `Chars` estimator on three nonempty sequences. -/
theorem charsFac_cons (s0 a0 b0 : Char) (s' a' b' : List Char) :
    charsInterpolationFactor (s0 :: s') (a0 :: a') (b0 :: b') =
      if a0 = b0 then charsInterpolationFactor s' a' b'
      else charInterpolationFactor s0 a0 b0 := by
  by_cases h : a0 = b0 <;> simp [charsInterpolationFactor, List.zip, List.filter, h]

theorem charsFac_nil_left (a b : List Char) :
    charsInterpolationFactor [] a b = F32.half := by
  simp [charsInterpolationFactor]

theorem charsFac_nil_mid (s b : List Char) :
    charsInterpolationFactor s [] b = F32.half := by
  simp [charsInterpolationFactor]

theorem charsFac_nil_right (s a : List Char) :
    charsInterpolationFactor s a [] = F32.half := by
  simp [charsInterpolationFactor]

/-- C7: the string estimator walks `target`, `low`, `high` character by
character; at the first position where `low` and `high` disagree it
returns the single-character estimate of that triple (the numeric
estimator on code points), and if no position below the shortest of the
three lengths disagrees it returns `0.5`. -/
theorem chars_factor_spec :
    (∀ (s a b : List Char) (i : Nat) (c : Char),
      i < s.length → i < a.length → i < b.length →
      (∀ j, j < i → a.getD j c = b.getD j c) →
      a.getD i c ≠ b.getD i c →
      charsInterpolationFactor s a b =
        charInterpolationFactor (s.getD i c) (a.getD i c) (b.getD i c)) ∧
    (∀ (s a b : List Char) (c : Char),
      (∀ j, j < s.length → j < a.length → j < b.length → a.getD j c = b.getD j c) →
      charsInterpolationFactor s a b = F32.half) := by
  constructor
  · intro s
    induction s with
    | nil => intro a b i c hs; simp at hs
    | cons s0 s' ih =>
      intro a b i c hs ha hb hpre hne
      match a, b with
      | [], _ => simp at ha
      | _ :: _, [] => simp at hb
      | a0 :: a', b0 :: b' =>
        match i with
        | 0 =>
          simp only [List.getD_cons_zero] at hne ⊢
          rw [charsFac_cons, if_neg hne]
        | i + 1 =>
          have h0 : a0 = b0 := by
            have := hpre 0 (Nat.succ_pos i)
            simpa using this
          rw [charsFac_cons, if_pos h0]
          simp only [List.getD_cons_succ]
          exact ih a' b' i c (by simpa using hs) (by simpa using ha) (by simpa using hb)
            (fun j hj => by simpa using hpre (j + 1) (by omega)) (by simpa using hne)
  · intro s
    induction s with
    | nil => intro a b c _; exact charsFac_nil_left a b
    | cons s0 s' ih =>
      intro a b c hall
      match a, b with
      | [], _ => exact charsFac_nil_mid _ _
      | _ :: _, [] => exact charsFac_nil_right _ _
      | a0 :: a', b0 :: b' =>
        have h0 : a0 = b0 := by simpa using hall 0 (by simp) (by simp) (by simp)
        rw [charsFac_cons, if_pos h0]
        exact ih a' b' c (fun j h1 h2 h3 =>
          by simpa using hall (j + 1) (by simpa using h1) (by simpa using h2) (by simpa using h3))

/-- Witness for C7: `low` and `high` first disagree at position 1, and a
fully-agreeing prefix yields `0.5`. -/
theorem chars_factor_spec_witness :
    charsInterpolationFactor ['x', 'c'] ['a', 'p'] ['a', 'r'] =
      charInterpolationFactor (['x', 'c'].getD 1 'z') (['a', 'p'].getD 1 'z')
        (['a', 'r'].getD 1 'z') ∧
    charsInterpolationFactor ['x', 'y'] ['a', 'b'] ['a', 'b', 'c'] = F32.half := by
  constructor
  · apply chars_factor_spec.1 ['x', 'c'] ['a', 'p'] ['a', 'r'] 1 'z' (by norm_num)
      (by norm_num) (by norm_num)
    · intro j hj
      have h0 : j = 0 := by omega
      subst h0
      rfl
    · decide
  · apply chars_factor_spec.2 ['x', 'y'] ['a', 'b'] ['a', 'b', 'c'] 'q'
    intro j h1 h2 h3
    simp only [List.length_cons, List.length_nil] at h1
    have h01 : j = 0 ∨ j = 1 := by omega
    rcases h01 with rfl | rfl <;> rfl

/-- Window-relative bounds of the iterative loop: a found index lies in
`[first_idx, last_idx)` and a reported insertion point never exceeds
`last_idx = first_idx + window length`, for any estimator, key, target and
window — sorted or not. -/
theorem interpGo_bounds {α κ : Type} [LinearOrder κ] (fac : κ → κ → κ → F32)
    (key : α → κ) (t : κ) :
    ∀ fuel first (w : List α) (i : Nat),
      (interpGo fac key t fuel first w = .ok i → first ≤ i ∧ i < first + w.length) ∧
      (interpGo fac key t fuel first w = .error i → i ≤ first + w.length) := by
  intro fuel
  induction fuel with
  | zero =>
    intro first w i
    cases w with
    | nil =>
      constructor <;> intro h
      · simp [interpGo] at h
      · simp [interpGo] at h
        omega
    | cons x l =>
      constructor <;> intro h
      · simp [interpGo] at h
      · simp [interpGo] at h
        omega
  | succ fuel ih =>
    intro first w i
    match w with
    | [] =>
      constructor <;> intro h
      · simp [interpGo] at h
      · simp [interpGo] at h
        omega
    | [f0] =>
      constructor <;> intro h <;>
        (simp only [interpGo] at h; split_ifs at h <;> simp_all <;> omega)
    | f0 :: r0 :: rs =>
      have hmb := lerp_idx_bounds first (first + (f0 :: r0 :: rs).length)
        (fac t (key f0) (key ((r0 :: rs).getLast (List.cons_ne_nil r0 rs)))) (by simp)
      constructor <;> intro h <;> simp only [interpGo] at h <;>
        split_ifs at h with h1 h2 h3 h4
      · cases h
        exact ⟨hmb.1, by simp only [List.length_cons] at hmb ⊢; omega⟩
      · have hb := (ih first _ i).1 h
        rw [List.length_take] at hb
        simp only [List.length_cons] at hmb hb ⊢
        omega
      · have hb := (ih _ _ i).1 h
        rw [List.length_drop] at hb
        simp only [List.length_cons] at hmb hb ⊢
        omega
      · cases h
        omega
      · cases h
        omega
      · have hb := (ih first _ i).2 h
        rw [List.length_take] at hb
        simp only [List.length_cons] at hmb hb ⊢
        omega
      · have hb := (ih _ _ i).2 h
        rw [List.length_drop] at hb
        simp only [List.length_cons] at hmb hb ⊢
        omega

/-- C9: for every slice and every target, sorted or not, a returned
`Ok(i)` has `i < len` and a returned `Err(i)` has `i ≤ len`, for both
`interpolation_search_by_key` and `interpolation_search`. -/
theorem search_result_index_bounds {α κ : Type} [LinearOrder κ]
    (fac : κ → κ → κ → F32) (key : α → κ) (s : List α) (t : κ) (i : Nat) :
    ((interpolation_search_by_key fac key s t = .ok i → i < s.length) ∧
      (interpolation_search_by_key fac key s t = .error i → i ≤ s.length)) ∧
    (∀ (u : List κ), (interpolation_search fac u t = .ok i → i < u.length) ∧
      (interpolation_search fac u t = .error i → i ≤ u.length)) := by
  constructor
  · constructor
    · intro h
      have := (interpGo_bounds fac key t s.length 0 s i).1 h
      omega
    · intro h
      have := (interpGo_bounds fac key t s.length 0 s i).2 h
      omega
  · intro u
    constructor
    · intro h
      have := (interpGo_bounds fac id t u.length 0 u i).1 h
      omega
    · intro h
      have := (interpGo_bounds fac id t u.length 0 u i).2 h
      omega

set_option maxRecDepth 100000 in
/-- Witness for C9: searching `[3, 5]` for `5` finds index `1`, which is
below the length `2`. -/
theorem search_result_index_bounds_witness : (1 : Nat) < ([3, 5] : List Int).length :=
  (search_result_index_bounds intInterpolationFactor id [3, 5] 5 1).1.1 (by decide)

/-- The narrowing-iteration count is bounded by the window's size: every
iteration that recurses strictly shrinks the window, for any estimator and
any input. -/
theorem interpGoCount_le {α κ : Type} [LinearOrder κ] (fac : κ → κ → κ → F32)
    (key : α → κ) (t : κ) :
    ∀ fuel first (w : List α), interpGoCount fac key t fuel first w ≤ w.length := by
  intro fuel
  induction fuel with
  | zero =>
    intro first w
    cases w <;> simp [interpGoCount]
  | succ fuel ih =>
    intro first w
    match w with
    | [] => simp [interpGoCount]
    | [f0] =>
      simp only [interpGoCount]
      split_ifs <;> simp
    | f0 :: r0 :: rs =>
      have hmb := lerp_idx_bounds first (first + (f0 :: r0 :: rs).length)
        (fac t (key f0) (key ((r0 :: rs).getLast (List.cons_ne_nil r0 rs)))) (by simp)
      simp only [interpGoCount]
      split_ifs with h1 h2 h3 h4
      · simp
      · simp
      · simp
      · have hb := ih first ((f0 :: r0 :: rs).take
          (lerp_idx first (first + (f0 :: r0 :: rs).length)
            (fac t (key f0) (key ((r0 :: rs).getLast (List.cons_ne_nil r0 rs)))) - first))
        rw [List.length_take] at hb
        simp only [List.length_cons] at hmb hb ⊢
        omega
      · have hb := ih (lerp_idx first (first + (f0 :: r0 :: rs).length)
            (fac t (key f0) (key ((r0 :: rs).getLast (List.cons_ne_nil r0 rs)))) + 1)
          ((f0 :: r0 :: rs).drop
            (lerp_idx first (first + (f0 :: r0 :: rs).length)
              (fac t (key f0) (key ((r0 :: rs).getLast (List.cons_ne_nil r0 rs)))) - first + 1))
        rw [List.length_drop] at hb
        simp only [List.length_cons] at hmb hb ⊢
        omega

/-- C3: the clamped candidate `lerp_idx first last f` lies in
`[first, last - 1]` — strictly inside the half-open window — for every
`f32` factor whenever `first < last`, so each narrowing iteration strictly
shrinks the window and the loop performs at most `len` narrowing
iterations on an input of length `len`. -/
theorem loop_strict_shrink_and_bound :
    (∀ (first last : Nat) (f : F32), first < last →
      first ≤ lerp_idx first last f ∧ lerp_idx first last f ≤ last - 1) ∧
    (∀ {α κ : Type} [LinearOrder κ] (fac : κ → κ → κ → F32) (key : α → κ)
      (s : List α) (t : κ), interpolation_search_iterations fac key s t ≤ s.length) :=
  ⟨lerp_idx_bounds, fun fac key s t => interpGoCount_le fac key t s.length 0 s⟩

/-- Witness for C3: on the window `[0, 10)` even a NaN factor yields a
candidate inside `[0, 9]`. -/
theorem loop_strict_shrink_and_bound_witness :
    0 ≤ lerp_idx 0 10 F32.nan ∧ lerp_idx 0 10 F32.nan ≤ 10 - 1 :=
  loop_strict_shrink_and_bound.1 0 10 .nan (by decide)

/-- The marked iterative loop never reaches the `[_] => Err(0)` arm: on a
one-element window the three preceding guards are exhaustive by the
trichotomy of the total order, for any input. -/
theorem interpGoMarked_eq {α κ : Type} [LinearOrder κ] (fac : κ → κ → κ → F32)
    (key : α → κ) (t : κ) :
    ∀ fuel first (w : List α),
      interpGoMarked fac key t fuel first w = some (interpGo fac key t fuel first w) := by
  intro fuel
  induction fuel with
  | zero =>
    intro first w
    cases w <;> simp [interpGoMarked, interpGo]
  | succ fuel ih =>
    intro first w
    match w with
    | [] => simp [interpGoMarked, interpGo]
    | [f0] =>
      simp only [interpGoMarked, interpGo]
      split_ifs with h1 h2 h3
      · rfl
      · rfl
      · rfl
      · exact absurd (le_antisymm (not_lt.mp h1) (not_lt.mp h3)) h2
    | f0 :: r0 :: rs =>
      simp only [interpGoMarked, interpGo]
      split_ifs with h1 h2 h3 h4
      · rfl
      · rfl
      · rfl
      · exact ih _ _
      · exact ih _ _

/-- The marked recursive search never reaches its `[_] => Err(0)` arm. -/
theorem libGoMarked_eq {α : Type} [LinearOrder α] (frac : α → α → α → F32) (t : α) :
    ∀ fuel (w : List α),
      libGoMarked frac t fuel w = some (libGo frac t fuel w) := by
  intro fuel
  induction fuel with
  | zero =>
    intro w
    cases w <;> simp [libGoMarked, libGo]
  | succ fuel ih =>
    intro w
    match w with
    | [] => simp [libGoMarked, libGo]
    | [f0] =>
      simp only [libGoMarked, libGo]
      split_ifs with h1 h2 h3
      · rfl
      · rfl
      · rfl
      · exact absurd (le_antisymm (not_lt.mp h1) (not_lt.mp h3)) h2
    | f0 :: r0 :: rs =>
      simp only [libGoMarked, libGo]
      split_ifs with h1 h2 h3 h4
      · rfl
      · rfl
      · rfl
      · exact ih _
      · rw [ih _]
        rfl

/-- C10: the final fallback arm `[_] => Err(0)` is unreachable for every
input, sorted or not, in both the iterative and the recursive searches:
the variants that report that arm as `none` always return `some` of the
ordinary result. -/
theorem unreachable_arm_never_taken :
    (∀ {α κ : Type} [LinearOrder κ] (fac : κ → κ → κ → F32) (key : α → κ)
      (s : List α) (t : κ),
      interpGoMarked fac key t s.length 0 s =
        some (interpolation_search_by_key fac key s t)) ∧
    (∀ {α : Type} [LinearOrder α] (frac : α → α → α → F32) (s : List α) (t : α),
      libGoMarked frac t s.length s = some (lib_interpolation_search frac s t)) :=
  ⟨fun fac key s t => interpGoMarked_eq fac key t s.length 0 s,
   fun frac s t => libGoMarked_eq frac t s.length s⟩

/-- The checked iterative loop never hits a partial-operation failure:
the loop's guards establish `first ≤ target ≤ last` before the estimator
runs, so `Ord::clamp` sees `low ≤ high`, and the clamped candidate index
is always in bounds. -/
theorem interpGoChecked_eq (t : Int) :
    ∀ fuel first (w : List Int),
      interpGoChecked t fuel first w =
        some (interpGo intInterpolationFactor id t fuel first w) := by
  intro fuel
  induction fuel with
  | zero =>
    intro first w
    cases w <;> simp [interpGoChecked, interpGo]
  | succ fuel ih =>
    intro first w
    match w with
    | [] => simp [interpGoChecked, interpGo]
    | [f0] =>
      simp only [interpGoChecked, interpGo, id_eq]
      split_ifs <;> rfl
    | f0 :: r0 :: rs =>
      simp only [interpGoChecked, interpGo, id_eq]
      have hle : ¬t < f0 → ¬(r0 :: rs).getLast (List.cons_ne_nil r0 rs) < t →
          intInterpolationFactorChecked t f0 ((r0 :: rs).getLast (List.cons_ne_nil r0 rs)) =
            some (intInterpolationFactor t f0 ((r0 :: rs).getLast (List.cons_ne_nil r0 rs))) := by
        intro h1 h2
        rw [intInterpolationFactorChecked, intInterpolationFactor]
        split_ifs with hab
        · rfl
        · rw [checkedClamp, if_pos ((not_lt.mp h1).trans (not_lt.mp h2))]
          rfl
      have hr : lerp_idx first (first + (f0 :: r0 :: rs).length)
          (intInterpolationFactor t f0 ((r0 :: rs).getLast (List.cons_ne_nil r0 rs))) - first <
          (f0 :: r0 :: rs).length :=
        lerp_idx_sub_lt first _ _ (by simp)
      split_ifs with h1 h2 h3 h4
      · rfl
      · rfl
      · rw [hle h1 h2]
        dsimp only
        rw [List.getElem?_eq_getElem hr]
        dsimp only
        simp only [List.get_eq_getElem] at h3
        rw [if_pos h3]
      · rw [hle h1 h2]
        dsimp only
        rw [List.getElem?_eq_getElem hr]
        dsimp only
        simp only [List.get_eq_getElem] at h3 h4
        rw [if_neg h3, if_pos h4]
        exact ih _ _
      · rw [hle h1 h2]
        dsimp only
        rw [List.getElem?_eq_getElem hr]
        dsimp only
        simp only [List.get_eq_getElem] at h3 h4
        rw [if_neg h3, if_neg h4]
        exact ih _ _

/-- The checked recursive search never hits a partial-operation failure:
the guards establish `first ≤ target ≤ last`, so the unsigned
`other - self` subtractions in `Linear::distance_to` never underflow, and
the candidate index is always in bounds. -/
theorem libGoChecked_eq (t : Nat) :
    ∀ fuel (w : List Nat),
      libGoChecked t fuel w = some (libGo natFrac t fuel w) := by
  intro fuel
  induction fuel with
  | zero =>
    intro w
    cases w <;> simp [libGoChecked, libGo]
  | succ fuel ih =>
    intro w
    match w with
    | [] => simp [libGoChecked, libGo]
    | [f0] =>
      simp only [libGoChecked, libGo]
      split_ifs <;> rfl
    | f0 :: r0 :: rs =>
      simp only [libGoChecked, libGo]
      have hr : lerp_len (f0 :: r0 :: rs).length
          (natFractionOf (t - f0) ((r0 :: rs).getLast (List.cons_ne_nil r0 rs) - f0)) <
          (f0 :: r0 :: rs).length :=
        lerp_len_lt _ _ (by simp)
      split_ifs with h1 h2 h3 h4
      · rfl
      · rfl
      · rw [checkedSub, if_pos (not_lt.mp h1), checkedSub,
          if_pos ((not_lt.mp h1).trans (not_lt.mp h2))]
        dsimp only
        rw [List.getElem?_eq_getElem hr]
        dsimp only
        simp only [natFrac, natDistanceTo, List.get_eq_getElem] at h3
        rw [if_pos h3]
        rfl
      · rw [checkedSub, if_pos (not_lt.mp h1), checkedSub,
          if_pos ((not_lt.mp h1).trans (not_lt.mp h2))]
        dsimp only
        rw [List.getElem?_eq_getElem hr]
        dsimp only
        simp only [natFrac, natDistanceTo, List.get_eq_getElem] at h3 h4
        rw [if_neg h3, if_pos h4]
        exact ih _
      · rw [checkedSub, if_pos (not_lt.mp h1), checkedSub,
          if_pos ((not_lt.mp h1).trans (not_lt.mp h2))]
        dsimp only
        rw [List.getElem?_eq_getElem hr]
        dsimp only
        simp only [natFrac, natDistanceTo, List.get_eq_getElem] at h3 h4
        rw [if_neg h3, if_neg h4, ih _]
        rfl

/-- C2: for every input slice and target, sorted or not, the searches are
total: the checked variants — in which a violated `Ord::clamp`
precondition, an underflowing unsigned subtraction in
`Linear::distance_to`, or an out-of-bounds `self[mid_idx]` access returns
`none` (a panic) — always return `some` of the ordinary result, and the
Lean embeddings are total functions (no divergence). -/
theorem search_total_no_panic :
    (∀ (s : List Int) (t : Int),
      interpolation_search_checked s t =
        some (interpolation_search intInterpolationFactor s t)) ∧
    (∀ (s : List Nat) (t : Nat),
      lib_interpolation_search_checked s t =
        some (lib_interpolation_search natFrac s t)) :=
  ⟨fun s t => interpGoChecked_eq t s.length 0 s,
   fun s t => libGoChecked_eq t s.length s⟩

/-- Value of `ceil(log2 32)`, computed by unfolding `Nat.clog`. -/
theorem clog_two_32 : Nat.clog 2 32 = 5 := by
  have h1 : Nat.clog 2 32 = Nat.clog 2 16 + 1 := by
    rw [Nat.clog_of_two_le (by norm_num) (by norm_num)]
  have h2 : Nat.clog 2 16 = Nat.clog 2 8 + 1 := by
    rw [Nat.clog_of_two_le (by norm_num) (by norm_num)]
  have h3 : Nat.clog 2 8 = Nat.clog 2 4 + 1 := by
    rw [Nat.clog_of_two_le (by norm_num) (by norm_num)]
  have h4 : Nat.clog 2 4 = Nat.clog 2 2 + 1 := by
    rw [Nat.clog_of_two_le (by norm_num) (by norm_num)]
  have h5 : Nat.clog 2 2 = Nat.clog 2 1 + 1 := by
    rw [Nat.clog_of_two_le (by norm_num) (by norm_num)]
  rw [h1, h2, h3, h4, h5, Nat.clog_one_right]

set_option maxRecDepth 1000000 in
/-- Counterexample for C4: on the skewed length-32 input `0, 1, ..., 30, 1000`
searching for `30` performs 30 narrowing iterations, while
`ceil(log2 32) = 5`: the interpolation estimate moves the candidate by one
position per iteration, so the loop is not bounded by `ceil(log2 N)` plus
a small constant (the same family grows linearly with `N`). -/
theorem log_iteration_bound_counterexample :
    interpolation_search_iterations intInterpolationFactor id skewed32 30 = 30 ∧
      skewed32.length = 32 ∧ Nat.clog 2 32 = 5 :=
  ⟨by decide, by decide, clog_two_32⟩

/-- C4 (amended): for every input of length `N` the loop performs at most
`N` narrowing iterations before terminating; the estimate-normalization
step keeps every candidate inside the window, which bounds the worst case
at O(N) — not O(log N), as the skewed counterexample shows. -/
theorem iteration_count_linear_bound {α κ : Type} [LinearOrder κ]
    (fac : κ → κ → κ → F32) (key : α → κ) (s : List α) (t : κ) :
    interpolation_search_iterations fac key s t ≤ s.length :=
  interpGoCount_le fac key t s.length 0 s

/-- Shifting the window start shifts the candidate index by the same
amount. -/
theorem lerp_idx_shift (first len : Nat) (f : F32) (h : 0 < len) :
    lerp_idx first (first + len) f = first + lerp_idx 0 len f := by
  simp only [lerp_idx, Nat.add_sub_cancel_left, Nat.sub_zero, Nat.zero_add]
  rw [if_neg (by omega), if_neg (by omega)]
  omega

/-- Offsetting a result by `0` is the identity. -/
theorem shiftResult_zero (r : Except Nat Nat) : shiftResult 0 r = r := by
  cases r <;> simp [shiftResult]

/-- Offsets compose additively. -/
theorem shiftResult_comp (a b : Nat) (r : Except Nat Nat) :
    shiftResult a (shiftResult b r) = shiftResult (b + a) r := by
  cases r <;> simp [shiftResult] <;> omega

/-- Transport of a list access along an index equality. -/
theorem get_congr {α : Type} (l : List α) (a b : Nat) (ha : a < l.length)
    (hb : b < l.length) (hab : a = b) : l.get ⟨a, ha⟩ = l.get ⟨b, hb⟩ := by
  subst hab
  rfl

/-- In a key-sorted list, keys are monotone in the index. -/
theorem sorted_key_le {α κ : Type} [LinearOrder κ] (key : α → κ) (w : List α)
    (hs : List.Pairwise (fun x y => key x ≤ key y) w) (a b : Nat)
    (hab : a ≤ b) (hb : b < w.length) :
    key (w.get ⟨a, lt_of_le_of_lt hab hb⟩) ≤ key (w.get ⟨b, hb⟩) := by
  rcases Nat.lt_or_ge a b with hlt | hge
  · exact List.pairwise_iff_get.mp hs ⟨a, lt_of_le_of_lt hab hb⟩ ⟨b, hb⟩ hlt
  · have : a = b := le_antisymm hab hge
    subst this
    exact le_refl _

/-- In a key-sorted list, the head's key is minimal. -/
theorem sorted_key_head_le {α κ : Type} [LinearOrder κ] (key : α → κ) (f0 : α)
    (l : List α) (hs : List.Pairwise (fun x y => key x ≤ key y) (f0 :: l)) :
    ∀ x ∈ f0 :: l, key f0 ≤ key x := by
  intro x hx
  rcases List.mem_cons.mp hx with rfl | hx2
  · exact le_refl _
  · exact List.rel_of_pairwise_cons hs hx2

/-- In a key-sorted list, the last element's key is maximal. -/
theorem sorted_key_le_getLast {α κ : Type} [LinearOrder κ] (key : α → κ) :
    ∀ (w : List α) (hw : w ≠ []),
      List.Pairwise (fun x y => key x ≤ key y) w →
      ∀ x ∈ w, key x ≤ key (w.getLast hw) := by
  intro w
  induction w with
  | nil => intro hw; exact absurd rfl hw
  | cons a l ih =>
    intro hw hs x hx
    cases l with
    | nil =>
      simp only [List.mem_singleton] at hx
      subst hx
      simp [List.getLast]
    | cons b m =>
      rw [List.getLast_cons (List.cons_ne_nil b m)]
      rcases List.mem_cons.mp hx with rfl | hx2
      · exact List.rel_of_pairwise_cons hs (List.getLast_mem (List.cons_ne_nil b m))
      · exact ih (List.cons_ne_nil b m) (List.Pairwise.of_cons hs) x hx2

/-- Main loop invariant on a key-sorted window: an `Ok` carries an index
of an element whose key equals the target, and an `Err` carries exactly
`first_idx` plus the number of window elements with key below the target —
the insertion point — with no element matching.  Holds for any estimator. -/
theorem interpGo_sorted_spec {α κ : Type} [LinearOrder κ] (fac : κ → κ → κ → F32)
    (key : α → κ) (t : κ) :
    ∀ fuel (first : Nat) (w : List α), w.length ≤ fuel →
      List.Pairwise (fun x y => key x ≤ key y) w →
      (∀ i, interpGo fac key t fuel first w = .ok i →
        first ≤ i ∧ ∃ h : i - first < w.length, key (w.get ⟨i - first, h⟩) = t) ∧
      (∀ i, interpGo fac key t fuel first w = .error i →
        i = first + insertion_point key w t ∧ ∀ x ∈ w, key x ≠ t) := by
  intro fuel
  induction fuel with
  | zero =>
    intro first w hf hs
    have hw : w = [] := List.length_eq_zero.mp (Nat.le_zero.mp hf)
    subst hw
    constructor
    · intro i h
      simp [interpGo] at h
    · intro i h
      simp [interpGo] at h
      simp [insertion_point, ← h]
  | succ fuel ih =>
    intro first w hf hs
    match w with
    | [] =>
      constructor
      · intro i h
        simp [interpGo] at h
      · intro i h
        simp [interpGo] at h
        simp [insertion_point, ← h]
    | [f0] =>
      constructor <;> intro i h <;> simp only [interpGo] at h <;>
        split_ifs at h with h1 h2 h3
      · cases h
        exact ⟨le_refl _, by simp, by simpa using h2⟩
      · cases h
        refine ⟨?_, fun x hx => ?_⟩
        · have hnl : ¬key f0 < t := not_lt.mpr (le_of_lt h1)
          simp [insertion_point, hnl]
        · simp only [List.mem_singleton] at hx
          subst hx
          exact ne_of_gt h1
      · cases h
        refine ⟨?_, fun x hx => ?_⟩
        · simp [insertion_point, h3]
        · simp only [List.mem_singleton] at hx
          subst hx
          exact ne_of_lt h3
      · exact absurd (le_antisymm (not_lt.mp h1) (not_lt.mp h3)) h2
    | f0 :: r0 :: rs =>
      have hmb := lerp_idx_bounds first (first + (f0 :: r0 :: rs).length)
        (fac t (key f0) (key ((r0 :: rs).getLast (List.cons_ne_nil r0 rs)))) (by simp)
      constructor <;> intro i h <;> simp only [interpGo] at h <;>
        split_ifs at h with h1 h2 h3 h4
      · -- Equal arm
        cases h
        refine ⟨hmb.1, lerp_idx_sub_lt first _ _ (by simp), ?_⟩
        exact h3
      · -- Greater arm, Ok result
        have hb := (ih first ((f0 :: r0 :: rs).take
            (lerp_idx first (first + (f0 :: r0 :: rs).length)
              (fac t (key f0) (key ((r0 :: rs).getLast (List.cons_ne_nil r0 rs)))) - first))
          (by rw [List.length_take]; simp only [List.length_cons] at hf hmb ⊢; omega)
          (List.Pairwise.sublist (List.take_sublist _ _) hs)).1 i h
        obtain ⟨hfi, hj, hkey⟩ := hb
        rw [List.length_take] at hj
        refine ⟨hfi, by simp only [List.length_cons] at hj ⊢; omega, ?_⟩
        rw [List.get_eq_getElem] at hkey ⊢
        rwa [List.getElem_take] at hkey
      · -- Less arm, Ok result
        have hb := (ih (lerp_idx first (first + (f0 :: r0 :: rs).length)
              (fac t (key f0) (key ((r0 :: rs).getLast (List.cons_ne_nil r0 rs)))) + 1)
          ((f0 :: r0 :: rs).drop
            (lerp_idx first (first + (f0 :: r0 :: rs).length)
              (fac t (key f0) (key ((r0 :: rs).getLast (List.cons_ne_nil r0 rs)))) - first + 1))
          (by rw [List.length_drop]; simp only [List.length_cons] at hf ⊢; omega)
          (List.Pairwise.sublist (List.drop_sublist _ _) hs)).1 i h
        obtain ⟨hfi, hj, hkey⟩ := hb
        rw [List.length_drop] at hj
        have hfirst : first ≤ i := le_trans (le_trans hmb.1 (Nat.le_succ _)) hfi
        refine ⟨hfirst, by simp only [List.length_cons] at hj ⊢; omega, ?_⟩
        rw [List.get_eq_getElem] at hkey ⊢
        rw [List.getElem_drop] at hkey
        have hidx : i - first =
            lerp_idx first (first + (f0 :: r0 :: rs).length)
              (fac t (key f0) (key ((r0 :: rs).getLast (List.cons_ne_nil r0 rs)))) - first + 1 +
            (i - (lerp_idx first (first + (f0 :: r0 :: rs).length)
              (fac t (key f0) (key ((r0 :: rs).getLast (List.cons_ne_nil r0 rs)))) + 1)) := by
          omega
        simp only [hidx]
        exact hkey
      · -- target below the window's first element
        cases h
        have hle := sorted_key_head_le key f0 (r0 :: rs) hs
        have h0 : insertion_point key (f0 :: r0 :: rs) t = 0 := by
          rw [insertion_point, List.countP_eq_zero]
          intro x hx
          simp only [decide_eq_true_eq]
          exact not_lt.mpr (le_of_lt (lt_of_lt_of_le h1 (hle x hx)))
        exact ⟨by rw [h0]; omega, fun x hx => ne_of_gt (lt_of_lt_of_le h1 (hle x hx))⟩

      · -- target above the window's last element
        cases h
        have hlast : ∀ x ∈ f0 :: r0 :: rs,
            key x ≤ key ((r0 :: rs).getLast (List.cons_ne_nil r0 rs)) := by
          intro x hx
          have hx2 := sorted_key_le_getLast key (f0 :: r0 :: rs)
            (List.cons_ne_nil f0 (r0 :: rs)) hs x hx
          rwa [List.getLast_cons (List.cons_ne_nil r0 rs)] at hx2
        have hall : insertion_point key (f0 :: r0 :: rs) t = (f0 :: r0 :: rs).length := by
          rw [insertion_point, List.countP_eq_length]
          intro x hx
          simp only [decide_eq_true_eq]
          exact lt_of_le_of_lt (hlast x hx) h2
        exact ⟨by rw [hall], fun x hx => ne_of_lt (lt_of_le_of_lt (hlast x hx) h2)⟩
      · -- Greater arm, Err result
        have hrlt := lerp_idx_sub_lt first (f0 :: r0 :: rs).length
          (fac t (key f0) (key ((r0 :: rs).getLast (List.cons_ne_nil r0 rs)))) (by simp)
        obtain ⟨hi, hne⟩ := (ih first ((f0 :: r0 :: rs).take
            (lerp_idx first (first + (f0 :: r0 :: rs).length)
              (fac t (key f0) (key ((r0 :: rs).getLast (List.cons_ne_nil r0 rs)))) - first))
          (by rw [List.length_take]; simp only [List.length_cons] at hf hmb ⊢; omega)
          (List.Pairwise.sublist (List.take_sublist _ _) hs)).2 i h
        have hgt : ∀ x ∈ (f0 :: r0 :: rs).drop
            (lerp_idx first (first + (f0 :: r0 :: rs).length)
              (fac t (key f0) (key ((r0 :: rs).getLast (List.cons_ne_nil r0 rs)))) - first),
            t < key x := by
          intro x hx
          obtain ⟨⟨j, hj⟩, hxe⟩ := List.mem_iff_get.mp hx
          rw [List.get_eq_getElem, List.getElem_drop] at hxe
          subst hxe
          refine lt_of_lt_of_le h4 ?_
          have hb2 : lerp_idx first (first + (f0 :: r0 :: rs).length)
              (fac t (key f0) (key ((r0 :: rs).getLast (List.cons_ne_nil r0 rs)))) - first + j <
              (f0 :: r0 :: rs).length := by
            rw [List.length_drop] at hj
            omega
          have hsl := sorted_key_le key (f0 :: r0 :: rs) hs
            (lerp_idx first (first + (f0 :: r0 :: rs).length)
              (fac t (key f0) (key ((r0 :: rs).getLast (List.cons_ne_nil r0 rs)))) - first)
            (lerp_idx first (first + (f0 :: r0 :: rs).length)
              (fac t (key f0) (key ((r0 :: rs).getLast (List.cons_ne_nil r0 rs)))) - first + j)
            (Nat.le_add_right _ _) hb2
          simpa [List.get_eq_getElem] using hsl
        have hz : insertion_point key ((f0 :: r0 :: rs).drop
            (lerp_idx first (first + (f0 :: r0 :: rs).length)
              (fac t (key f0) (key ((r0 :: rs).getLast (List.cons_ne_nil r0 rs)))) - first)) t = 0 := by
          rw [insertion_point, List.countP_eq_zero]
          intro x hx
          simp only [decide_eq_true_eq]
          exact not_lt.mpr (le_of_lt (hgt x hx))
        have happ : insertion_point key (f0 :: r0 :: rs) t =
            insertion_point key ((f0 :: r0 :: rs).take
              (lerp_idx first (first + (f0 :: r0 :: rs).length)
                (fac t (key f0) (key ((r0 :: rs).getLast (List.cons_ne_nil r0 rs)))) - first)) t +
            insertion_point key ((f0 :: r0 :: rs).drop
              (lerp_idx first (first + (f0 :: r0 :: rs).length)
                (fac t (key f0) (key ((r0 :: rs).getLast (List.cons_ne_nil r0 rs)))) - first)) t := by
          rw [insertion_point, insertion_point, insertion_point, ← List.countP_append,
            List.take_append_drop]
        constructor
        · omega
        · intro x hx
          rw [← List.take_append_drop
            (lerp_idx first (first + (f0 :: r0 :: rs).length)
              (fac t (key f0) (key ((r0 :: rs).getLast (List.cons_ne_nil r0 rs)))) - first)
            (f0 :: r0 :: rs)] at hx
          rcases List.mem_append.mp hx with hx1 | hx2
          · exact hne x hx1
          · exact ne_of_gt (hgt x hx2)
      · -- Less arm, Err result
        have hrlt := lerp_idx_sub_lt first (f0 :: r0 :: rs).length
          (fac t (key f0) (key ((r0 :: rs).getLast (List.cons_ne_nil r0 rs)))) (by simp)
        obtain ⟨hi, hne⟩ := (ih (lerp_idx first (first + (f0 :: r0 :: rs).length)
              (fac t (key f0) (key ((r0 :: rs).getLast (List.cons_ne_nil r0 rs)))) + 1)
          ((f0 :: r0 :: rs).drop
            (lerp_idx first (first + (f0 :: r0 :: rs).length)
              (fac t (key f0) (key ((r0 :: rs).getLast (List.cons_ne_nil r0 rs)))) - first + 1))
          (by rw [List.length_drop]; simp only [List.length_cons] at hf ⊢; omega)
          (List.Pairwise.sublist (List.drop_sublist _ _) hs)).2 i h
        have hmidlt : key ((f0 :: r0 :: rs).get
            ⟨lerp_idx first (first + (f0 :: r0 :: rs).length)
              (fac t (key f0) (key ((r0 :: rs).getLast (List.cons_ne_nil r0 rs)))) - first,
              lerp_idx_sub_lt first _ _ (by simp)⟩) < t :=
          lt_of_le_of_ne (not_lt.mp h4) h3
        have hlt : ∀ x ∈ (f0 :: r0 :: rs).take
            (lerp_idx first (first + (f0 :: r0 :: rs).length)
              (fac t (key f0) (key ((r0 :: rs).getLast (List.cons_ne_nil r0 rs)))) - first + 1),
            key x < t := by
          intro x hx
          obtain ⟨⟨j, hj⟩, hxe⟩ := List.mem_iff_get.mp hx
          rw [List.get_eq_getElem, List.getElem_take] at hxe
          subst hxe
          refine lt_of_le_of_lt ?_ hmidlt
          have hjle : j ≤ lerp_idx first (first + (f0 :: r0 :: rs).length)
              (fac t (key f0) (key ((r0 :: rs).getLast (List.cons_ne_nil r0 rs)))) - first := by
            rw [List.length_take] at hj
            omega
          have hsl := sorted_key_le key (f0 :: r0 :: rs) hs j
            (lerp_idx first (first + (f0 :: r0 :: rs).length)
              (fac t (key f0) (key ((r0 :: rs).getLast (List.cons_ne_nil r0 rs)))) - first)
            hjle hrlt
          exact hsl
        have htake : insertion_point key ((f0 :: r0 :: rs).take
            (lerp_idx first (first + (f0 :: r0 :: rs).length)
              (fac t (key f0) (key ((r0 :: rs).getLast (List.cons_ne_nil r0 rs)))) - first + 1)) t =
            lerp_idx first (first + (f0 :: r0 :: rs).length)
              (fac t (key f0) (key ((r0 :: rs).getLast (List.cons_ne_nil r0 rs)))) - first + 1 := by
          have hlen2 : ((f0 :: r0 :: rs).take
              (lerp_idx first (first + (f0 :: r0 :: rs).length)
                (fac t (key f0) (key ((r0 :: rs).getLast (List.cons_ne_nil r0 rs)))) - first + 1)).length =
              lerp_idx first (first + (f0 :: r0 :: rs).length)
                (fac t (key f0) (key ((r0 :: rs).getLast (List.cons_ne_nil r0 rs)))) - first + 1 := by
            rw [List.length_take]
            simp only [List.length_cons] at hrlt ⊢
            omega
          rw [insertion_point]
          conv_rhs => rw [← hlen2]
          rw [List.countP_eq_length]
          intro x hx
          simp only [decide_eq_true_eq]
          exact hlt x hx
        have happ : insertion_point key (f0 :: r0 :: rs) t =
            insertion_point key ((f0 :: r0 :: rs).take
              (lerp_idx first (first + (f0 :: r0 :: rs).length)
                (fac t (key f0) (key ((r0 :: rs).getLast (List.cons_ne_nil r0 rs)))) - first + 1)) t +
            insertion_point key ((f0 :: r0 :: rs).drop
              (lerp_idx first (first + (f0 :: r0 :: rs).length)
                (fac t (key f0) (key ((r0 :: rs).getLast (List.cons_ne_nil r0 rs)))) - first + 1)) t := by
          rw [insertion_point, insertion_point, insertion_point, ← List.countP_append,
            List.take_append_drop]
        constructor
        · omega
        · intro x hx
          rw [← List.take_append_drop
            (lerp_idx first (first + (f0 :: r0 :: rs).length)
              (fac t (key f0) (key ((r0 :: rs).getLast (List.cons_ne_nil r0 rs)))) - first + 1)
            (f0 :: r0 :: rs)] at hx
          rcases List.mem_append.mp hx with hx1 | hx2
          · exact ne_of_lt (hlt x hx1)
          · exact hne x hx2

/-- C1: on a key-sorted slice, `interpolation_search_by_key` agrees with
the reference binary search for every estimator: if some element's key
equals the target (binary search finds it), the result is `Ok(i)` with the
element at `i` matching; otherwise the result is `Err` at exactly the
reference insertion point, the number of elements with key below the
target.  `interpolation_search` is the `key = id` instance. -/
theorem interp_search_agrees_with_binary_search {α κ : Type} [LinearOrder κ]
    (fac : κ → κ → κ → F32) (key : α → κ) (s : List α) (t : κ)
    (hs : (s.map key).Sorted (· ≤ ·)) :
    (binary_search_finds key s t →
      ∃ i, ∃ h : i < s.length, interpolation_search_by_key fac key s t = .ok i ∧
        key (s.get ⟨i, h⟩) = t) ∧
    (¬binary_search_finds key s t →
      interpolation_search_by_key fac key s t = .error (insertion_point key s t)) := by
  have hp : List.Pairwise (fun x y => key x ≤ key y) s := List.pairwise_map.mp hs
  have hspec := interpGo_sorted_spec fac key t s.length 0 s (le_refl _) hp
  constructor
  · intro hfind
    match hres : interpolation_search_by_key fac key s t with
    | .ok i =>
      obtain ⟨-, hj, hkey⟩ := hspec.1 i hres
      rw [Nat.sub_zero] at hj
      refine ⟨i, hj, rfl, ?_⟩
      have hj2 : i - 0 < s.length := by omega
      have := hkey
      simp only [Nat.sub_zero] at this
      exact this
    | .error i =>
      obtain ⟨-, hne⟩ := hspec.2 i hres
      obtain ⟨x, hx, hxe⟩ := hfind
      exact absurd hxe (hne x hx)
  · intro hnot
    match hres : interpolation_search_by_key fac key s t with
    | .ok i =>
      obtain ⟨-, hj, hkey⟩ := hspec.1 i hres
      exact absurd ⟨s.get ⟨i - 0, hj⟩, List.get_mem s _ hj, hkey⟩ hnot
    | .error i =>
      obtain ⟨hi, -⟩ := hspec.2 i hres
      rw [hres] at *
      rw [hi, Nat.zero_add]

/-- Witness for C1: searching the sorted slice `[1, 2, 3]` for `2`. -/
theorem interp_search_agrees_with_binary_search_witness :
    (binary_search_finds id ([1, 2, 3] : List Int) 2 →
      ∃ i, ∃ h : i < ([1, 2, 3] : List Int).length,
        interpolation_search_by_key intInterpolationFactor id [1, 2, 3] 2 = .ok i ∧
        id (([1, 2, 3] : List Int).get ⟨i, h⟩) = 2) ∧
    (¬binary_search_finds id ([1, 2, 3] : List Int) 2 →
      interpolation_search_by_key intInterpolationFactor id [1, 2, 3] 2 =
        .error (insertion_point id [1, 2, 3] 2)) :=
  interp_search_agrees_with_binary_search intInterpolationFactor id [1, 2, 3] 2 (by decide)

/-- At window start `0` the iterative index map coincides with the
recursive one for every length and factor. -/
theorem lerp_idx_zero_eq_lerp_len (len : Nat) (f : F32) :
    lerp_idx 0 len f = lerp_len len f := by
  match len with
  | 0 => rfl
  | 1 =>
    simp [lerp_idx, lerp_len]
  | n + 2 =>
    simp only [lerp_idx, lerp_len, Nat.sub_zero, Nat.zero_add]
    rw [if_neg (by omega)]

/-- Window-by-window correspondence between the iterative loop and the
recursive search, for any pair of estimators that agree whenever the
guards hold (`first ≤ target ≤ last`): the iterative result is the
recursive result offset by the window start. -/
theorem interpGo_eq_libGo {α : Type} [LinearOrder α] (fac frac : α → α → α → F32)
    (hagree : ∀ lo x hi, lo ≤ x → x ≤ hi → fac x lo hi = frac lo x hi) (t : α) :
    ∀ fuel first (w : List α),
      interpGo fac id t fuel first w = shiftResult first (libGo frac t fuel w) := by
  intro fuel
  induction fuel with
  | zero =>
    intro first w
    cases w <;> simp [interpGo, libGo, shiftResult]
  | succ fuel ih =>
    intro first w
    match w with
    | [] => simp [interpGo, libGo, shiftResult]
    | [f0] =>
      simp only [interpGo, libGo, id_eq]
      by_cases h1 : t < f0
      · rw [if_pos h1, if_pos h1]
        simp [shiftResult]
      · rw [if_neg h1, if_neg h1]
        by_cases h2 : f0 = t
        · rw [if_pos h2, if_pos h2]
          simp [shiftResult]
        · rw [if_neg h2, if_neg h2]
          by_cases h3 : f0 < t
          · rw [if_pos h3, if_pos h3]
            simp [shiftResult, Nat.add_comm]
          · exact absurd (le_antisymm (not_lt.mp h1) (not_lt.mp h3)) h2
    | f0 :: r0 :: rs =>
      simp only [interpGo, libGo, id_eq]
      by_cases h1 : t < f0
      · rw [if_pos h1, if_pos h1]
        simp [shiftResult]
      · rw [if_neg h1, if_neg h1]
        by_cases h2 : (r0 :: rs).getLast (List.cons_ne_nil r0 rs) < t
        · rw [if_pos h2, if_pos h2]
          simp [shiftResult, Nat.add_comm]
        · rw [if_neg h2, if_neg h2]
          have hfac : fac t f0 ((r0 :: rs).getLast (List.cons_ne_nil r0 rs)) =
              frac f0 t ((r0 :: rs).getLast (List.cons_ne_nil r0 rs)) :=
            hagree _ _ _ (not_lt.mp h1) (not_lt.mp h2)
          have hMr : lerp_idx first (first + (f0 :: r0 :: rs).length)
              (frac f0 t ((r0 :: rs).getLast (List.cons_ne_nil r0 rs))) =
              first + lerp_len (f0 :: r0 :: rs).length
                (frac f0 t ((r0 :: rs).getLast (List.cons_ne_nil r0 rs))) := by
            rw [lerp_idx_shift _ _ _ (by simp), lerp_idx_zero_eq_lerp_len]
          simp only [hfac, hMr, Nat.add_sub_cancel_left]
          by_cases h3 : (f0 :: r0 :: rs).get
              ⟨lerp_len (f0 :: r0 :: rs).length
                (frac f0 t ((r0 :: rs).getLast (List.cons_ne_nil r0 rs))),
                lerp_len_lt _ _ (by simp)⟩ = t
          · rw [if_pos h3, if_pos h3]
            simp [shiftResult, Nat.add_comm]
          · rw [if_neg h3, if_neg h3]
            by_cases h4 : t < (f0 :: r0 :: rs).get
                ⟨lerp_len (f0 :: r0 :: rs).length
                  (frac f0 t ((r0 :: rs).getLast (List.cons_ne_nil r0 rs))),
                  lerp_len_lt _ _ (by simp)⟩
            · rw [if_pos h4, if_pos h4]
              exact ih first _
            · rw [if_neg h4, if_neg h4]
              rw [ih _ _, shiftResult_comp]
              congr 1
              omega

/-- Under the guards, the signed-integer `interpolation_factor` equals the
`distance_to`/`fraction_of` composition of the recursive formulation. -/
theorem intFactor_agrees (lo x hi : Int) (h1 : lo ≤ x) (h2 : x ≤ hi) :
    intInterpolationFactor x lo hi = intFrac lo x hi := by
  by_cases hab : lo = hi
  · subst hab
    simp [intInterpolationFactor, intFrac, natFractionOf, intDistanceTo, absDiff]
  · have hy : absDiff lo hi ≠ 0 := by
      rw [absDiff]
      simpa [sub_eq_zero] using hab
    rw [intInterpolationFactor, if_neg hab, intFrac, intDistanceTo, intDistanceTo,
      natFractionOf, if_neg hy]
    have hclamp : intClamp x lo hi = x := by
      rw [intClamp, min_eq_left h2, max_eq_right h1]
    rw [hclamp]

/-- Under the guards, the unsigned-integer `interpolation_factor` equals
the `distance_to`/`fraction_of` composition. -/
theorem natFactor_agrees (lo x hi : Nat) (h1 : lo ≤ x) (h2 : x ≤ hi) :
    natInterpolationFactor x lo hi = natFrac lo x hi := by
  by_cases hab : lo = hi
  · subst hab
    simp [natInterpolationFactor, natFrac, natFractionOf, natDistanceTo]
  · have hlt : lo < hi := lt_of_le_of_ne (h1.trans h2) hab
    have hy : natDistanceTo lo hi ≠ 0 := by
      rw [natDistanceTo]
      omega
    rw [natInterpolationFactor, if_neg hab, natFrac, natFractionOf, if_neg hy]
    have hmid : max lo (min x hi) = x := by
      rw [min_eq_left h2, max_eq_right h1]
    rw [hmid]
    have hd1 : natAbsDiff lo x = natDistanceTo lo x := by
      rw [natAbsDiff, natDistanceTo, max_eq_right h1, min_eq_left h1]
    have hd2 : natAbsDiff lo hi = natDistanceTo lo hi := by
      rw [natAbsDiff, natDistanceTo, max_eq_right (h1.trans h2), min_eq_left (h1.trans h2)]
    simp only [hd1, hd2]

/-- C8: for every slice of a built-in integer type (signed via `Int`,
unsigned via `Nat`) and every target, sorted or not, the recursive
`lib.rs` formulation and the iterative `interpolation_search.rs`
formulation return exactly the same `Result`, and both use the same
right-boundary convention: `Err(len)` when every element is below the
target. -/
theorem iterative_matches_recursive :
    (∀ (s : List Int) (t : Int),
      interpolation_search intInterpolationFactor s t = lib_interpolation_search intFrac s t) ∧
    (∀ (s : List Nat) (t : Nat),
      interpolation_search natInterpolationFactor s t = lib_interpolation_search natFrac s t) ∧
    (∀ (s : List Int) (t : Int), s ≠ [] → (∀ x ∈ s, x < t) →
      interpolation_search intInterpolationFactor s t = .error s.length ∧
      lib_interpolation_search intFrac s t = .error s.length) := by
  have hint : ∀ (s : List Int) (t : Int),
      interpolation_search intInterpolationFactor s t = lib_interpolation_search intFrac s t := by
    intro s t
    rw [interpolation_search, interpolation_search_by_key, lib_interpolation_search,
      interpGo_eq_libGo intInterpolationFactor intFrac intFactor_agrees t s.length 0 s,
      shiftResult_zero]
  refine ⟨hint, ?_, ?_⟩
  · intro s t
    rw [interpolation_search, interpolation_search_by_key, lib_interpolation_search,
      interpGo_eq_libGo natInterpolationFactor natFrac natFactor_agrees t s.length 0 s,
      shiftResult_zero]
  · intro s t hne hall
    have hiter : interpolation_search intInterpolationFactor s t = .error s.length := by
      match s, hne with
      | f0 :: rest, _ =>
        have hf0 : f0 < t := hall f0 (List.mem_cons_self f0 rest)
        rw [interpolation_search, interpolation_search_by_key]
        have hlen : (f0 :: rest).length = rest.length + 1 := by simp
        rw [hlen]
        match rest with
        | [] =>
          simp only [interpGo, id_eq]
          rw [if_neg (not_lt.mpr (le_of_lt hf0)), if_neg (ne_of_lt hf0), if_pos hf0]
          simp
        | r0 :: rs =>
          simp only [interpGo, id_eq]
          rw [if_neg (not_lt.mpr (le_of_lt hf0)),
            if_pos (hall _ (List.mem_cons_of_mem f0 (List.getLast_mem (List.cons_ne_nil r0 rs))))]
          simp
    exact ⟨hiter, by rw [← hint s t]; exact hiter⟩

/-- Witness for C8: on `[1, 2]` with target `5` both formulations return
`Err(2)`. -/
theorem iterative_matches_recursive_witness :
    interpolation_search intInterpolationFactor [1, 2] 5 = .error ([1, 2] : List Int).length ∧
      lib_interpolation_search intFrac [1, 2] 5 = .error ([1, 2] : List Int).length :=
  iterative_matches_recursive.2.2 [1, 2] 5 (by decide) (by decide)
